import Mathlib

/-!
Verification of the Draft Synthesizer manuscript editor.

This file gives a shallow embedding, in Lean 4, of the paragraph model and
the store operations of the Draft Synthesizer application (`src/App.tsx`,
`src/components/FinalColumn.tsx`, and the Gemini service module), and proves
or refutes the frozen specification claims about them.

Modelling conventions:
* JavaScript strings are Lean `String`s; where structural recursion over
  characters is needed (the paragraph splitter) we work on `List Char`
  via `String.data`.
* `undefined`-able fields (`sourceDraftIndex?`, `originalId?`, ...) are
  `Option`s.
* Nondeterministic id minting (`Date.now()` + `Math.random()`) is modelled by
  an explicit id-supply argument (`Nat → String`); claims never depend on the
  concrete shape of a minted id.
* Fallible external calls (the Gemini endpoint, `JSON.parse`) are modelled as
  oracle arguments returning `Except`/`Option`; a thrown exception is the
  `error`/`none` result.
* JS truthiness on strings (`s || t`, `filter(Boolean)`, `if (saved)`) is
  modelled faithfully: the empty string is falsy.
-/

namespace DraftSynth

/-- JS whitespace class `\s`: the full ECMAScript set — WhiteSpace (tab,
vertical tab, form feed, space, no-break space, ZWNBSP, and every Unicode
space-separator: U+1680, U+2000..U+200A, U+202F, U+205F, U+3000) together
with the LineTerminators (LF, CR, LS U+2028, PS U+2029); used both by the
splitter regex `\n\s*\n+` and by `String.prototype.trim`. -/
def isJsWs (c : Char) : Bool :=
  c = '\t' || c = '\n' || c = '\x0b' || c = '\x0c' || c = '\r' || c = ' ' ||
  c = '\u00A0' || c = '\u1680' || (0x2000 ≤ c.toNat && c.toNat ≤ 0x200A) ||
  c = '\u202F' || c = '\u205F' || c = '\u3000' || c = '\u2028' || c = '\u2029' ||
  c = '\uFEFF'

/-- String.prototype.trim on the character list of a string: drop leading
and trailing JS whitespace. -/
def jsTrim (l : List Char) : List Char :=
  ((l.dropWhile isJsWs).reverse.dropWhile isJsWs).reverse

/-- JS `a || b` for an optional string `a`: `undefined` and the empty string
are falsy, so both fall through to `b`. -/
def jsOr (a : Option String) (b : String) : String :=
  match a with
  | some s => if s = "" then b else s
  | none => b

/-- Array map with index, JS `arr.map((x, i) => f i x)`, starting the index at `n`;
structural so that concrete witnesses evaluate inside the kernel. -/
def mapIdxFrom (f : Nat → α → β) : Nat → List α → List β
  | _, [] => []
  | n, a :: as => f n a :: mapIdxFrom f (n + 1) as

/-- The `Paragraph` record of `src/types.ts` (fields as used by `App.tsx`):
`{ id, text, sourceDraftIndex?, sourceParaIndex?, originalId? }`. -/
structure Paragraph where
  id : String
  text : String
  sourceDraftIndex : Option Nat
  sourceParaIndex : Option Nat
  originalId : Option String
deriving DecidableEq, Repr

/-- The `ManuscriptDraft` record: `{ id, title, customTitle, paragraphs }`. -/
structure ManuscriptDraft where
  id : Nat
  title : String
  customTitle : String
  paragraphs : List Paragraph
deriving DecidableEq, Repr

/-- Index (0-based) of the last `'\n'` in a character list, if any. -/
def lastNewlinePos : List Char → Option Nat
  | [] => none
  | c :: rest =>
    match lastNewlinePos rest with
    | some j => some (j + 1)
    | none => if c = '\n' then some 0 else none

/-- Leftmost-anchored match of the separator regex `/\n\s*\n+/` at the head of
the list, returning the remainder after the match.  Backtracking semantics of
the JS regex: the match must start with `'\n'`; greedy `\s*` then backtracks
until `\n+` can fire, so a successful match extends exactly to the last `'\n'`
inside the maximal whitespace run following the first character. -/
def matchSep : List Char → Option (List Char)
  | [] => none
  | c :: rest =>
    if c = '\n' then
      match lastNewlinePos (rest.takeWhile isJsWs) with
      | some j => some (rest.drop (j + 1))
      | none => none
    else none

/-- JS `String.prototype.split(/\n\s*\n+/)` as a left-to-right scan: at each
position try the anchored separator match; on a hit, emit the accumulated
chunk and continue after the match.  The `Nat` argument is structural fuel
(every call site supplies at least the list length, and a separator match
always consumes at least one character, so the fallback row is unreachable
from `splitSep`). -/
def splitSepAux : Nat → List Char → List Char → List (List Char)
  | _, [], acc => [acc.reverse]
  | 0, l, acc => [acc.reverse ++ l]
  | fuel + 1, c :: rest, acc =>
    match matchSep (c :: rest) with
    | some rem => acc.reverse :: splitSepAux fuel rem []
    | none => splitSepAux fuel rest (c :: acc)

/-- Split a character list on the separator regex `/\n\s*\n+/`. -/
def splitSep (l : List Char) : List (List Char) :=
  splitSepAux l.length l []

/-- parseTextToParagraphs (`src/App.tsx`): split the input on runs of two or
more newlines, trim each chunk, drop empty chunks, and build a `Paragraph`
per surviving chunk.  `ids pIdx` stands for the freshly minted id
`draft-${draftIndex}-${pIdx}-${Date.now()}-${Math.random()}` of chunk `pIdx`. -/
def parseTextToParagraphs (ids : Nat → String) (text : String) (draftIndex : Nat) :
    List Paragraph :=
  mapIdxFrom
    (fun pIdx cs =>
      { id := ids pIdx
        text := String.mk cs
        sourceDraftIndex := some draftIndex
        sourceParaIndex := some pIdx
        originalId := some (ids pIdx) })
    0
    (((splitSep text.data).map jsTrim).filter (fun cs => !cs.isEmpty))

/-- reflectedIds (`src/App.tsx`):
`new Set(finalParagraphs.map(p => p.originalId).filter(Boolean))` — the
membership list of the derived reflected set.  `filter(Boolean)` drops both
`undefined` and the (falsy) empty string. -/
def reflectedIds (finalParagraphs : List Paragraph) : List String :=
  (finalParagraphs.filterMap Paragraph.originalId).filter (fun s => !(s == ""))

/-- Modelled from the spec: the spec's own description of the reflected set,
`{ p.originalId : p in FinalManuscript, p.originalId defined }`, with no
truthiness filter; kept separate from the code's `reflectedIds` so the two
can be compared. -/
def reflectedIdsSpec (finalParagraphs : List Paragraph) : List String :=
  finalParagraphs.filterMap Paragraph.originalId

/-- The copy of `paragraph` that `addParagraphToFinal` inserts:
`{ ...paragraph, id: fresh, originalId: paragraph.originalId || paragraph.id }`. -/
def finalCopy (newId : String) (paragraph : Paragraph) : Paragraph :=
  { paragraph with id := newId, originalId := some (jsOr paragraph.originalId paragraph.id) }

/-- JS `Array.prototype.splice(i, 0, x)`: insert `x` at position `i` (clamped to
the length, as in JS). -/
def spliceInsert (i : Nat) (x : Paragraph) (l : List Paragraph) : List Paragraph :=
  l.take i ++ x :: l.drop i

/-- JS `Array.prototype.splice(i, 1)` without the removed element: drop the
element at position `i` (no-op beyond the end, as in JS). -/
def spliceRemove (i : Nat) (l : List Paragraph) : List Paragraph :=
  l.take i ++ l.drop (i + 1)

/-- addParagraphToFinal (`src/App.tsx`): insert a fresh-id copy of the given
paragraph at `atIndex` when given (`splice(atIndex, 0, newPara)`), else append
at the end.  `newId` stands for the minted `final-${Date.now()}-${Math.random()}`. -/
def addParagraphToFinal (newId : String) (paragraph : Paragraph) (atIndex : Option Nat)
    (prev : List Paragraph) : List Paragraph :=
  match atIndex with
  | some i => spliceInsert i (finalCopy newId paragraph) prev
  | none => prev ++ [finalCopy newId paragraph]

/-- Placeholder draft used to type the partial lookup `drafts[draftIdx]`;
in JS an out-of-range index would be a `TypeError` crash, never a silent
fallback, and every theorem below supplies an in-range index. -/
def missingDraft : ManuscriptDraft :=
  { id := 0, title := "", customTitle := "", paragraphs := [] }

/-- addAllFromDraft (`src/App.tsx`): take draft `draftIdx`'s paragraphs whose
id is not in the reflected set, and append them all at the end of the final
manuscript, each as a copy with a minted id (`freshIds n` for the `n`-th added
entry) and `originalId` set to the source paragraph's id. -/
def addAllFromDraft (freshIds : Nat → String) (draftIdx : Nat)
    (drafts : List ManuscriptDraft) (finalParagraphs : List Paragraph) : List Paragraph :=
  let sourceDraft := (drafts[draftIdx]?).getD missingDraft
  let toAdd := sourceDraft.paragraphs.filter
    (fun p => !((reflectedIds finalParagraphs).contains p.id))
  finalParagraphs ++
    mapIdxFrom (fun n p => { p with id := freshIds n, originalId := some p.id }) 0 toAdd

/-- The filter predicate of `removeAllFromDraft`:
`p.sourceDraftIndex !== draftIdx` — true for an `undefined` field (strict
inequality between `undefined` and a number), and for a different index. -/
def keepPara (draftIdx : Nat) (p : Paragraph) : Bool :=
  match p.sourceDraftIndex with
  | some m => m != draftIdx
  | none => true

/-- removeAllFromDraft (`src/App.tsx`): drop every final-manuscript entry
whose stored `sourceDraftIndex` equals the given draft index. -/
def removeAllFromDraft (draftIdx : Nat) (prev : List Paragraph) : List Paragraph :=
  prev.filter (keepPara draftIdx)

/-- moveParagraphInFinal (`src/App.tsx`): splice the element out at
`dragIndex` and splice it back in at `hoverIndex` of the shortened list.
When `dragIndex` is out of range the JS code splices `undefined` into the
array — an ill-typed state outside the `Paragraph[]` data model — so the
embedding leaves the list unchanged there; every theorem below supplies an
in-range `dragIndex`. -/
def moveParagraphInFinal (dragIndex hoverIndex : Nat) (prev : List Paragraph) :
    List Paragraph :=
  match prev[dragIndex]? with
  | some removed => spliceInsert hoverIndex removed (spliceRemove dragIndex prev)
  | none => prev

/-- updateDraftContent (`src/App.tsx`) restricted to the drafts store:
re-split the given text and replace draft `idx`'s paragraph sequence wholesale. -/
def updateDraftContent (ids : Nat → String) (idx : Nat) (text : String)
    (prev : List ManuscriptDraft) : List ManuscriptDraft :=
  match prev[idx]? with
  | some d => prev.set idx { d with paragraphs := parseTextToParagraphs ids text idx }
  | none => prev

/-- The application state: the three `useState` stores of `App.tsx`. -/
structure AppState where
  drafts : List ManuscriptDraft
  finalParagraphs : List Paragraph
  dismissedParagraphIds : List String
deriving DecidableEq, Repr

/-- updateDraftContent as a state transition: only the drafts store changes. -/
def updateDraftContentS (ids : Nat → String) (idx : Nat) (text : String)
    (s : AppState) : AppState :=
  { s with drafts := updateDraftContent ids idx text s.drafts }

/-- A file handed to the global upload handler: its `name` and the text
content delivered by `file.text()`. -/
structure UploadFile where
  name : String
  content : String
deriving DecidableEq, Repr

/-- Code-point comparison of file names, modelling the
`a.name.localeCompare(b.name) <= 0` ordering of the upload handler's sort
(locale collation is modelled as code-point order). -/
def charListLe : List Char → List Char → Bool
  | [], _ => true
  | _ :: _, [] => false
  | a :: as, b :: bs =>
    if a.toNat < b.toNat then true
    else if b.toNat < a.toNat then false
    else charListLe as bs

/-- Stable insertion of a file into a name-sorted list (ties keep the earlier
file first, matching the stability of `Array.prototype.sort`). -/
def insertFileByName (f : UploadFile) : List UploadFile → List UploadFile
  | [] => [f]
  | g :: gs =>
    if charListLe f.name.data g.name.data then f :: g :: gs
    else g :: insertFileByName f gs

/-- JS `Array.from(files).sort((a, b) => a.name.localeCompare(b.name))` as a
stable sort by file name. -/
def sortFilesByName : List UploadFile → List UploadFile
  | [] => []
  | f :: fs => insertFileByName f (sortFilesByName fs)

/-- One iteration of the upload loop:
`newDrafts[i] = { ...newDrafts[i], paragraphs: parseTextToParagraphs(text, i) }`.
The loop only runs `i < min(sortedFiles.length, 3)`, so `sorted[i]` always
exists there; a missing draft slot (impossible for the fixed three-slot store)
is modelled as a no-op. -/
def uploadStep (sorted : List UploadFile) (ids : Nat → Nat → String)
    (ds : List ManuscriptDraft) (i : Nat) : List ManuscriptDraft :=
  match sorted[i]?, ds[i]? with
  | some file, some d =>
      ds.set i { d with paragraphs := parseTextToParagraphs (ids i) file.content i }
  | _, _ => ds

/-- The `for (let i = 0; i < Math.min(sortedFiles.length, 3); i++)` loop of
`handleGlobalFileUpload`. -/
def applyUpload (sorted : List UploadFile) (ids : Nat → Nat → String)
    (drafts : List ManuscriptDraft) : List ManuscriptDraft :=
  (List.range (min sorted.length 3)).foldl (uploadStep sorted ids) drafts

/-- handleGlobalFileUpload (`src/App.tsx`) restricted to the drafts store:
no selected files is an early return; otherwise sort the files by name and
assign the first (at most) three to draft slots 0, 1, 2.  `ids i` is the
id supply used for slot `i`'s splitter run. -/
def handleGlobalFileUpload (files : List UploadFile) (ids : Nat → Nat → String)
    (drafts : List ManuscriptDraft) : List ManuscriptDraft :=
  if files.isEmpty then drafts
  else applyUpload (sortFilesByName files) ids drafts

/-- A file dropped on the final column: `name`, MIME `type`, and the data URL
produced by the `FileReader`. -/
structure UploadImage where
  name : String
  type : String
  dataUrl : String
deriving DecidableEq, Repr

/-- The paragraph minted by `handleImageFiles` (`src/components/FinalColumn.tsx`):
`{ id: img-${Date.now()}, text: ![name](base64) }` — no `sourceDraftIndex`,
no `sourceParaIndex`, no `originalId`. -/
def imageParagraph (now fileName dataUrl : String) : Paragraph :=
  { id := "img-" ++ now
    text := "![" ++ fileName ++ "](" ++ dataUrl ++ ")"
    sourceDraftIndex := none
    sourceParaIndex := none
    originalId := none }

/-- handleImageFiles (`src/components/FinalColumn.tsx`) composed with the
`onAddNew` callback (which is `addParagraphToFinal`): only the first file is
considered, and only when its MIME type starts with `image/`.  `now` stands
for `Date.now()`, `newId` for the final-store id minted inside
`addParagraphToFinal`. -/
def handleImageFiles (now newId : String) (files : List UploadImage) (atIndex : Nat)
    (prev : List Paragraph) : List Paragraph :=
  match files with
  | [] => prev
  | file :: _ =>
    if ("image/".data).isPrefixOf file.type.data then
      addParagraphToFinal newId (imageParagraph now file.name file.dataUrl) (some atIndex) prev
    else prev

/-- The shape of a successfully `JSON.parse`d persisted blob: each of the
three top-level fields may be absent (`undefined` is falsy, so the
initializer falls back to its default). -/
structure PersistedBlob where
  drafts : Option (List ManuscriptDraft)
  finalParagraphs : Option (List Paragraph)
  dismissedParagraphIds : Option (List String)
deriving DecidableEq, Repr

/-- The default drafts store: three empty drafts with their fixed titles. -/
def defaultDrafts : List ManuscriptDraft :=
  [ { id := 1, title := "초안 1", customTitle := "", paragraphs := [] },
    { id := 2, title := "초안 2", customTitle := "", paragraphs := [] },
    { id := 3, title := "초안 3", customTitle := "", paragraphs := [] } ]

/-- The drafts `useState` initializer: `saved` is
`localStorage.getItem(STORAGE_KEY)` (`none` = `null`), `parse` models
`JSON.parse` (`none` = thrown `SyntaxError`, swallowed by the `catch`).
`if (saved)` treats the empty string as falsy. -/
def initDrafts (saved : Option String) (parse : String → Option PersistedBlob) :
    List ManuscriptDraft :=
  match saved with
  | some s =>
    if s = "" then defaultDrafts
    else
      match parse s with
      | some blob =>
        match blob.drafts with
        | some ds => ds
        | none => defaultDrafts
      | none => defaultDrafts
  | none => defaultDrafts

/-- The final-paragraphs `useState` initializer (default: empty list). -/
def initFinalParagraphs (saved : Option String) (parse : String → Option PersistedBlob) :
    List Paragraph :=
  match saved with
  | some s =>
    if s = "" then []
    else
      match parse s with
      | some blob =>
        match blob.finalParagraphs with
        | some ps => ps
        | none => []
      | none => []
  | none => []

/-- The dismissed-ids `useState` initializer (default: empty set; the stored
ordered list is reconstructed into a set, modelled by its member list). -/
def initDismissed (saved : Option String) (parse : String → Option PersistedBlob) :
    List String :=
  match saved with
  | some s =>
    if s = "" then []
    else
      match parse s with
      | some blob =>
        match blob.dismissedParagraphIds with
        | some ds => ds
        | none => []
      | none => []
  | none => []

/-- The fixed instruction prefixed to the manuscript text by
`polishManuscript`. -/
def polishPrompt (text : String) : String :=
  "다음 원고를 더 매끄럽고 전문적인 문체로 다듬어줘. 문맥을 유지하면서 문장 구조와 어휘를 개선해줘:\n\n" ++ text

/-- JS `drafts[i]` interpolated into a template literal: a missing element
prints as the string `undefined`. -/
def jsAt (drafts : List String) (i : Nat) : String :=
  (drafts[i]?).getD "undefined"

/-- The merge prompt built by `suggestSynthesis` from the three draft texts. -/
def synthPrompt (drafts : List String) : String :=
  "다음 3가지 초안을 하나로 통합하여 가장 완성도 높은 최종 원고를 작성해줘. 각 초안의 장점을 살려서 자연스럽게 연결해줘.\n\n초안 1:\n" ++
    jsAt drafts 0 ++ "\n\n초안 2:\n" ++ jsAt drafts 1 ++ "\n\n초안 3:\n" ++ jsAt drafts 2

/-- polishManuscript (Gemini service module): call the generation endpoint
(`callModel model contents`; a thrown error is `Except.error`, a response is
`Except.ok response.text` with `response.text` possibly `undefined`); return
`response.text || text` on success and the original `text` on any caught
error.  Client construction is modelled as pure. -/
def polishManuscript (callModel : String → String → Except String (Option String))
    (text : String) : String :=
  match callModel "gemini-3-flash-preview" (polishPrompt text) with
  | Except.ok rtext => jsOr rtext text
  | Except.error _ => text

/-- suggestSynthesis (Gemini service module): merge the three drafts via the
endpoint; `response.text || "AI 통합본을 생성하지 못했습니다."` on success, the
fixed failure string `"오류가 발생했습니다."` on any caught error. -/
def suggestSynthesis (callModel : String → String → Except String (Option String))
    (drafts : List String) : String :=
  match callModel "gemini-3-pro-preview" (synthPrompt drafts) with
  | Except.ok rtext => jsOr rtext "AI 통합본을 생성하지 못했습니다."
  | Except.error _ => "오류가 발생했습니다."

/-- First character (if any) is not JS whitespace. -/
def headNotWs (l : List Char) : Bool :=
  match l.head? with
  | some x => !isJsWs x
  | none => true

/-- No separator match anywhere inside the chunk (bounded, hence decidable). -/
def noBlankRunB (c : List Char) : Bool :=
  (List.range c.length).all (fun i => (matchSep (c.drop i)).isNone)

/-- A chunk as the specification describes one: non-empty, already trimmed
(no leading or trailing whitespace), and containing no blank-line run. -/
def GoodChunk (c : List Char) : Prop :=
  c ≠ [] ∧ headNotWs c = true ∧ headNotWs c.reverse = true ∧ noBlankRunB c = true

/-- A blank-line separator: a run of two-or-more newlines, whitespace-tolerant —
whitespace characters only, at least two characters, first and last a newline. -/
def goodSepB (s : List Char) : Bool :=
  decide (2 ≤ s.length) && (s.head? == some '\n') && (s.getLast? == some '\n') &&
    s.all isJsWs

/-- Shape `chunk (sep chunk)*`: interleave chunks with separators. -/
def joinChunks (c : List Char) : List (List Char × List Char) → List Char
  | [] => c
  | (s, c2) :: rest => c ++ s ++ joinChunks c2 rest

/-- A raw chunk presented to the splitter: a trimmed non-empty core wrapped in
optional leading and trailing padding whitespace. -/
structure ChunkSpec where
  wsLead : List Char
  core : List Char
  wsTrail : List Char
deriving DecidableEq, Repr

/-- The raw text of a padded chunk. -/
def chunkOf (cs : ChunkSpec) : List Char :=
  cs.wsLead ++ cs.core ++ cs.wsTrail

/-- Whitespace run containing no newline (padding that cannot form or extend a
blank-line separator). -/
def nlFreeWsB (w : List Char) : Bool :=
  w.all (fun x => isJsWs x && !(x == '\n'))

/-- Every character is JS whitespace. -/
def allWsB (w : List Char) : Bool :=
  w.all isJsWs

/-- A chunk the specification calls a non-empty chunk: its core is non-empty,
trimmed and free of blank-line runs, and its padding whitespace carries no
newline. -/
def GoodChunkSpec (cs : ChunkSpec) : Prop :=
  nlFreeWsB cs.wsLead = true ∧ GoodChunk cs.core ∧ nlFreeWsB cs.wsTrail = true

instance (ck : List Char) : Decidable (GoodChunk ck) := by
  unfold GoodChunk
  infer_instance

instance (cs : ChunkSpec) : Decidable (GoodChunkSpec cs) := by
  unfold GoodChunkSpec
  infer_instance

/-- Final-manuscript entry whose `originalId` is present but empty: the
counterexample input for C4 and C5. -/
def emptyOrigPara : Paragraph :=
  { id := "x", text := "t", sourceDraftIndex := none, sourceParaIndex := none,
    originalId := some "" }

/-- No separator match starts anywhere inside `l`, even with `r` appended. -/
def NoMatchThrough (l r : List Char) : Prop :=
  ∀ i, i < l.length → matchSep (l.drop i ++ r) = none

/-! ### Shared helper lemmas -/

theorem contains_strings {l : List String} {a : String} : l.contains a = true ↔ a ∈ l := by
  simp [List.contains]

theorem mem_reflectedIds {finalParagraphs : List Paragraph} {s : String} :
    s ∈ reflectedIds finalParagraphs ↔
      (∃ p ∈ finalParagraphs, p.originalId = some s) ∧ s ≠ "" := by
  simp [reflectedIds, List.mem_filter, List.mem_filterMap]

theorem mem_reflectedIdsSpec {finalParagraphs : List Paragraph} {s : String} :
    s ∈ reflectedIdsSpec finalParagraphs ↔ ∃ p ∈ finalParagraphs, p.originalId = some s := by
  simp [reflectedIdsSpec, List.mem_filterMap]

theorem reflectedIds_append (a b : List Paragraph) :
    reflectedIds (a ++ b) = reflectedIds a ++ reflectedIds b := by
  simp [reflectedIds, List.filterMap_append, List.filter_append]

theorem keepPara_eq_true {k : Nat} {p : Paragraph} :
    keepPara k p = true ↔ p.sourceDraftIndex ≠ some k := by
  cases h : p.sourceDraftIndex <;> simp [keepPara, h]

/-! ### C3 — AI Gateway fail-soft behaviour -/

/-- C3: for every endpoint oracle, a thrown error makes `polishManuscript`
return the original input text unchanged, and makes `suggestSynthesis` return
the fixed failure string; both functions are total, so no unhandled error
escapes either call. -/
theorem polish_synthesize_fail_soft :
    ∀ (callModel : String → String → Except String (Option String)) (text : String)
      (drafts : List String) (e1 e2 : String),
      (callModel "gemini-3-flash-preview" (polishPrompt text) = Except.error e1 →
        polishManuscript callModel text = text) ∧
      (callModel "gemini-3-pro-preview" (synthPrompt drafts) = Except.error e2 →
        suggestSynthesis callModel drafts = "오류가 발생했습니다.") := by
  intro callModel text drafts e1 e2
  constructor
  · intro h; simp [polishManuscript, h]
  · intro h; simp [suggestSynthesis, h]

theorem polish_synthesize_fail_soft_witness :
    polishManuscript (fun _ _ => Except.error "network") "원고" = "원고" ∧
    suggestSynthesis (fun _ _ => Except.error "network") ["a", "b", "c"] = "오류가 발생했습니다." :=
  ⟨(polish_synthesize_fail_soft (fun _ _ => Except.error "network") "원고" ["a", "b", "c"]
      "network" "network").1 rfl,
   (polish_synthesize_fail_soft (fun _ _ => Except.error "network") "원고" ["a", "b", "c"]
      "network" "network").2 rfl⟩

/-! ### C8 — best-effort load with documented defaults -/

/-- C8: a missing persisted blob (`getItem` returned `null`) or one on which
`JSON.parse` throws yields the documented default state — three empty drafts
with their fixed titles, an empty final manuscript, and an empty dismissed
set — and, the initializers being total, no failure propagates. -/
theorem load_defaults (parse : String → Option PersistedBlob) (s : String)
    (hfail : parse s = none) :
    initDrafts none parse = defaultDrafts ∧
    initFinalParagraphs none parse = [] ∧
    initDismissed none parse = [] ∧
    initDrafts (some s) parse = defaultDrafts ∧
    initFinalParagraphs (some s) parse = [] ∧
    initDismissed (some s) parse = [] := by
  refine ⟨rfl, rfl, rfl, ?_, ?_, ?_⟩ <;>
  · by_cases hs : s = "" <;> simp [initDrafts, initFinalParagraphs, initDismissed, hs, hfail]

theorem load_defaults_witness :
    initDrafts none (fun _ => none) = defaultDrafts ∧
    initFinalParagraphs none (fun _ => none) = [] ∧
    initDismissed none (fun _ => none) = [] ∧
    initDrafts (some "not json") (fun _ => none) = defaultDrafts ∧
    initFinalParagraphs (some "not json") (fun _ => none) = [] ∧
    initDismissed (some "not json") (fun _ => none) = [] :=
  load_defaults (fun _ => none) "not json" rfl

/-! ### C7 — removeAllFromDraft removes exactly by stored sourceDraftIndex -/

/-- C7: `removeAllFromDraft k` keeps exactly the final-manuscript entries whose
stored `sourceDraftIndex` differs from `k` (order preserved), and since
`updateDraftContent` (draft replacement) never touches the final store, the
removal still takes out the old carried-over entries after draft `k`'s source
content has been replaced. -/
theorem removeAll_exact_and_carryover :
    ∀ (s : AppState) (k : Nat) (ids : Nat → String) (text : String),
      (∀ p, p ∈ removeAllFromDraft k (updateDraftContentS ids k text s).finalParagraphs ↔
          p ∈ s.finalParagraphs ∧ p.sourceDraftIndex ≠ some k) ∧
      removeAllFromDraft k (updateDraftContentS ids k text s).finalParagraphs =
        removeAllFromDraft k s.finalParagraphs ∧
      List.Sublist (removeAllFromDraft k s.finalParagraphs) s.finalParagraphs := by
  intro s k ids text
  have hfin : (updateDraftContentS ids k text s).finalParagraphs = s.finalParagraphs := rfl
  refine ⟨?_, by rw [hfin], List.filter_sublist _⟩
  intro p
  rw [hfin]
  unfold removeAllFromDraft
  rw [List.mem_filter, keepPara_eq_true]

/-! ### C4 — the reflected set as a pure derivation (corrected) -/

/-- C4 counterexample: the claim says the reflected set is exactly the set of
defined `originalId`s, but for an entry whose defined `originalId` is the
empty string (falsy in JS) `filter(Boolean)` drops it: `""` is in the
spec-described set yet not in the code's reflected set. -/
theorem reflected_set_cex :
    emptyOrigPara.originalId.isSome = true ∧
    "" ∈ reflectedIdsSpec [emptyOrigPara] ∧
    "" ∉ reflectedIds [emptyOrigPara] := by decide

/-- C4 (amended): at every state the reflected set is exactly the set of
non-empty defined `originalId`s of the current final manuscript — a pure
derivation of the final store (hence never stale); it differs from the
spec-described set `{ p.originalId : originalId defined }` only by the
truthiness filter dropping the empty string. -/
theorem reflected_set_characterization :
    ∀ (finalParagraphs : List Paragraph) (s : String),
      (s ∈ reflectedIds finalParagraphs ↔
        (∃ p ∈ finalParagraphs, p.originalId = some s) ∧ s ≠ "") ∧
      (s ∈ reflectedIdsSpec finalParagraphs ↔
        ∃ p ∈ finalParagraphs, p.originalId = some s) := by
  intro finalParagraphs s
  exact ⟨mem_reflectedIds, mem_reflectedIdsSpec⟩

/-! ### C5 — addParagraphToFinal insertion contract (corrected) -/

/-- C5 counterexample: the claim says the inserted copy's `originalId` equals
the source's `originalId` whenever it is present; but for a present-but-empty
`originalId` the JS `||` falls through to the paragraph's own id. -/
theorem append_insert_cex :
    emptyOrigPara.originalId = some "" ∧
    (addParagraphToFinal "nid" emptyOrigPara none []).map Paragraph.originalId =
      [some "x"] := by decide

/-- C5 (amended): `addParagraphToFinal` inserts exactly one copy of the given
paragraph — at position `atIndex` when given (shifting subsequent entries),
at the end otherwise — carrying the freshly minted id; the copy's
`originalId` is the source's `originalId` when present and non-empty,
otherwise the source's own id (the present-but-empty case falls through to the
id, the one divergence from the claim as stated); erasing the inserted
position recovers the previous list unchanged. -/
theorem append_insert_spec (newId : String) (p : Paragraph) (prev : List Paragraph)
    (i : Nat) (hi : i ≤ prev.length) :
    (addParagraphToFinal newId p (some i) prev)[i]? = some (finalCopy newId p) ∧
    (addParagraphToFinal newId p (some i) prev).eraseIdx i = prev ∧
    (addParagraphToFinal newId p (some i) prev).length = prev.length + 1 ∧
    addParagraphToFinal newId p none prev = addParagraphToFinal newId p (some prev.length) prev ∧
    (finalCopy newId p).id = newId ∧
    (finalCopy newId p).text = p.text ∧
    (finalCopy newId p).sourceDraftIndex = p.sourceDraftIndex ∧
    (finalCopy newId p).sourceParaIndex = p.sourceParaIndex ∧
    (p.originalId = none → (finalCopy newId p).originalId = some p.id) ∧
    (∀ s, p.originalId = some s → s ≠ "" → (finalCopy newId p).originalId = some s) ∧
    (p.originalId = some "" → (finalCopy newId p).originalId = some p.id) := by
  have htake : (prev.take i).length = i := by
    rw [List.length_take]; omega
  refine ⟨?_, ?_, ?_, ?_, rfl, rfl, rfl, rfl, ?_, ?_, ?_⟩
  · show (prev.take i ++ finalCopy newId p :: prev.drop i)[i]? = some (finalCopy newId p)
    rw [List.getElem?_append_right (Nat.le_of_eq htake)]
    simp [htake]
  · show (prev.take i ++ finalCopy newId p :: prev.drop i).eraseIdx i = prev
    rw [List.eraseIdx_eq_take_drop_succ, List.take_left' htake]
    have hsplit : prev.take i ++ finalCopy newId p :: prev.drop i =
        (prev.take i ++ [finalCopy newId p]) ++ prev.drop i := by simp
    rw [hsplit, List.drop_left' (by simp [htake]), List.take_append_drop]
  · show (prev.take i ++ finalCopy newId p :: prev.drop i).length = prev.length + 1
    simp [List.length_append, List.length_take, List.length_drop]
    omega
  · show prev ++ [finalCopy newId p] = spliceInsert prev.length (finalCopy newId p) prev
    unfold spliceInsert
    rw [List.take_length, List.drop_length]
  · intro h; simp [finalCopy, jsOr, h]
  · intro s hs hne; simp [finalCopy, jsOr, hs, hne]
  · intro h; simp [finalCopy, jsOr, h]

theorem append_insert_spec_witness :
    (addParagraphToFinal "nid"
        { id := "a", text := "t", sourceDraftIndex := some 1, sourceParaIndex := some 0,
          originalId := none }
        (some 0) [])[0]? =
      some (finalCopy "nid"
        { id := "a", text := "t", sourceDraftIndex := some 1, sourceParaIndex := some 0,
          originalId := none }) :=
  (append_insert_spec "nid"
    { id := "a", text := "t", sourceDraftIndex := some 1, sourceParaIndex := some 0,
      originalId := none } [] 0 (by decide)).1

/-! ### C10 — entries without sourceDraftIndex survive removeAllFromDraft -/

/-- C10: `removeAllFromDraft k` leaves the entries whose `sourceDraftIndex` is
undefined untouched and in their original relative order; in particular the
paragraph created by the image-drop handler (which carries no
`sourceDraftIndex`) survives every `removeAllFromDraft` call after insertion. -/
theorem removeAll_spares_unsourced :
    ∀ (k : Nat) (finalParagraphs prev : List Paragraph) (now newId : String)
      (file : UploadImage) (rest : List UploadImage) (atIndex : Nat),
      (removeAllFromDraft k finalParagraphs).filter (fun p => p.sourceDraftIndex.isNone) =
        finalParagraphs.filter (fun p => p.sourceDraftIndex.isNone) ∧
      (∀ p ∈ finalParagraphs, p.sourceDraftIndex = none →
        p ∈ removeAllFromDraft k finalParagraphs) ∧
      (("image/".data).isPrefixOf file.type.data = true →
        finalCopy newId (imageParagraph now file.name file.dataUrl) ∈
          removeAllFromDraft k (handleImageFiles now newId (file :: rest) atIndex prev)) := by
  intro k finalParagraphs prev now newId file rest atIndex
  refine ⟨?_, ?_, ?_⟩
  · unfold removeAllFromDraft
    rw [List.filter_filter]
    refine List.filter_congr ?_
    intro p _
    cases h : p.sourceDraftIndex <;> simp [keepPara, h]
  · intro p hp hnone
    unfold removeAllFromDraft
    rw [List.mem_filter, keepPara_eq_true]
    exact ⟨hp, by simp [hnone]⟩
  · intro himg
    simp only [handleImageFiles]
    rw [if_pos himg]
    unfold removeAllFromDraft
    rw [List.mem_filter, keepPara_eq_true]
    constructor
    · show finalCopy newId (imageParagraph now file.name file.dataUrl) ∈
        spliceInsert atIndex (finalCopy newId (imageParagraph now file.name file.dataUrl)) prev
      unfold spliceInsert
      exact List.mem_append_right _ (List.mem_cons_self _ _)
    · simp [finalCopy, imageParagraph]

theorem removeAll_spares_unsourced_witness :
    finalCopy "nid" (imageParagraph "7" "a.png" "data:x") ∈
      removeAllFromDraft 0
        (handleImageFiles "7" "nid"
          [{ name := "a.png", type := "image/png", dataUrl := "data:x" }] 0 []) :=
  (removeAll_spares_unsourced 0 [] [] "7" "nid"
    { name := "a.png", type := "image/png", dataUrl := "data:x" } [] 0).2.2 (by decide)

/-! ### C6 — move-then-move-back restores the order -/

theorem spliceInsert_at (A B : List Paragraph) (x : Paragraph) :
    spliceInsert A.length x (A ++ B) = A ++ x :: B := by
  unfold spliceInsert
  rw [List.take_left' rfl, List.drop_left' rfl]

theorem getElem?_middle (A C : List Paragraph) (x : Paragraph) :
    (A ++ x :: C)[A.length]? = some x := by
  rw [List.getElem?_append_right (Nat.le_refl _)]
  simp

theorem spliceRemove_middle (A C : List Paragraph) (x : Paragraph) :
    spliceRemove A.length (A ++ x :: C) = A ++ C := by
  unfold spliceRemove
  rw [List.take_left' rfl]
  have hsplit : A ++ x :: C = (A ++ [x]) ++ C := by simp
  rw [hsplit, List.drop_left' (by simp)]

theorem move_splice_roundtrip (A C : List Paragraph) (x : Paragraph) (j : Nat)
    (hj : j ≤ (A ++ C).length) :
    moveParagraphInFinal j A.length (spliceInsert j x (A ++ C)) = A ++ x :: C := by
  have hP : ((A ++ C).take j).length = j := by
    rw [List.length_take]; omega
  have h1 : (spliceInsert j x (A ++ C))[j]? = some x := by
    show ((A ++ C).take j ++ x :: (A ++ C).drop j)[j]? = some x
    rw [List.getElem?_append_right (Nat.le_of_eq hP)]
    simp [hP]
  have h2 : spliceRemove j (spliceInsert j x (A ++ C)) = A ++ C := by
    calc spliceRemove j ((A ++ C).take j ++ x :: (A ++ C).drop j)
        = spliceRemove ((A ++ C).take j).length
            ((A ++ C).take j ++ x :: (A ++ C).drop j) := by rw [hP]
      _ = (A ++ C).take j ++ (A ++ C).drop j := spliceRemove_middle _ _ _
      _ = A ++ C := List.take_append_drop j (A ++ C)
  unfold moveParagraphInFinal
  rw [h1]
  show spliceInsert A.length x (spliceRemove j (spliceInsert j x (A ++ C))) = A ++ x :: C
  rw [h2]
  exact spliceInsert_at A C x

/-- C6: on a final manuscript of length at least 2, with valid indices `i`
and `j`, `move(i, j)` followed by `move(j, i)` restores the original order
(`move` splices the element out at its first argument and reinserts it at its
second argument in the shortened sequence). -/
theorem move_roundtrip (l : List Paragraph) (i j : Nat) (_hlen : 2 ≤ l.length)
    (hi : i < l.length) (hj : j < l.length) :
    moveParagraphInFinal j i (moveParagraphInFinal i j l) = l := by
  have hsplit : l = l.take i ++ l[i] :: l.drop (i + 1) := by
    conv_lhs => rw [← List.take_append_drop i l]
    rw [← List.getElem_cons_drop l i hi]
  have hAlen : (l.take i).length = i := by
    rw [List.length_take]; omega
  have h1 : moveParagraphInFinal i j l =
      spliceInsert j l[i] (l.take i ++ l.drop (i + 1)) := by
    unfold moveParagraphInFinal
    rw [List.getElem?_eq_getElem hi]
    rfl
  have hjle : j ≤ (l.take i ++ l.drop (i + 1)).length := by
    rw [List.length_append, hAlen, List.length_drop]; omega
  have h2 := move_splice_roundtrip (l.take i) (l.drop (i + 1)) l[i] j hjle
  rw [hAlen] at h2
  rw [h1, h2]
  exact hsplit.symm

theorem move_roundtrip_witness :
    moveParagraphInFinal 1 0
      (moveParagraphInFinal 0 1
        [ { id := "f1", text := "A", sourceDraftIndex := some 0, sourceParaIndex := some 0,
            originalId := some "a" },
          { id := "f2", text := "B", sourceDraftIndex := some 1, sourceParaIndex := some 0,
            originalId := some "b" } ]) =
      [ { id := "f1", text := "A", sourceDraftIndex := some 0, sourceParaIndex := some 0,
          originalId := some "a" },
        { id := "f2", text := "B", sourceDraftIndex := some 1, sourceParaIndex := some 0,
          originalId := some "b" } ] :=
  move_roundtrip _ 0 1 (by decide) (by decide) (by decide)

/-! ### C2 — addAllFromDraft batch append and idempotence -/

theorem mem_mapIdxFrom_of_mem {f : Nat → α → β} :
    ∀ {l : List α} (n : Nat) {p : α}, p ∈ l → ∃ m, f m p ∈ mapIdxFrom f n l := by
  intro l
  induction l with
  | nil => intro n p hp; cases hp
  | cons a as ih =>
    intro n p hp
    rcases List.mem_cons.1 hp with h | h
    · subst h; exact ⟨n, List.mem_cons_self _ _⟩
    · obtain ⟨m, hm⟩ := ih (n + 1) h
      exact ⟨m, List.mem_cons_of_mem _ hm⟩

/-- C2 counterexample: idempotence fails when a draft paragraph's id is the
empty string.  The entry appended by the first call carries
`originalId = ""`, which `filter(Boolean)` drops from the reflected set, so a
second call appends the same paragraph again and the texts differ. -/
theorem addAll_cex :
    (addAllFromDraft (fun _ => "g") 0
        [ { id := 1, title := "초안 1", customTitle := "",
            paragraphs := [ { id := "", text := "T", sourceDraftIndex := some 0,
                              sourceParaIndex := some 0, originalId := some "" } ] } ]
        (addAllFromDraft (fun _ => "f") 0
          [ { id := 1, title := "초안 1", customTitle := "",
              paragraphs := [ { id := "", text := "T", sourceDraftIndex := some 0,
                                sourceParaIndex := some 0, originalId := some "" } ] } ]
          [])).map Paragraph.text ≠
      ((addAllFromDraft (fun _ => "f") 0
          [ { id := 1, title := "초안 1", customTitle := "",
              paragraphs := [ { id := "", text := "T", sourceDraftIndex := some 0,
                                sourceParaIndex := some 0, originalId := some "" } ] } ]
          [])).map Paragraph.text := by decide

/-- C2 (amended): for a valid draft index, `addAllFromDraft` appends at the
end, in draft order, exactly the draft paragraphs whose id is not in the
reflected set, each with a minted id and `originalId` set to the source
paragraph's id; and — provided every paragraph id of the draft is non-empty
(the one case the counterexample exhibits: an empty id is dropped from the
reflected set by the truthiness filter) — calling it twice in a row yields
the very same final manuscript as calling it once. -/
theorem addAll_batch_and_idempotent (f1 f2 : Nat → String) (k : Nat)
    (drafts : List ManuscriptDraft) (finalParagraphs : List Paragraph)
    (d : ManuscriptDraft) (hd : drafts[k]? = some d)
    (hids : ∀ p ∈ d.paragraphs, p.id ≠ "") :
    addAllFromDraft f1 k drafts finalParagraphs =
      finalParagraphs ++
        mapIdxFrom (fun n p => { p with id := f1 n, originalId := some p.id }) 0
          (d.paragraphs.filter
            (fun p => !((reflectedIds finalParagraphs).contains p.id))) ∧
    addAllFromDraft f2 k drafts (addAllFromDraft f1 k drafts finalParagraphs) =
      addAllFromDraft f1 k drafts finalParagraphs := by
  have hb : ∀ (f : Nat → String) (fin : List Paragraph),
      addAllFromDraft f k drafts fin =
        fin ++ mapIdxFrom (fun n p => { p with id := f n, originalId := some p.id }) 0
          (d.paragraphs.filter (fun p => !((reflectedIds fin).contains p.id))) := by
    intro f fin
    unfold addAllFromDraft
    rw [hd]
    rfl
  refine ⟨hb f1 finalParagraphs, ?_⟩
  have hall : ∀ p ∈ d.paragraphs,
      p.id ∈ reflectedIds (addAllFromDraft f1 k drafts finalParagraphs) := by
    intro p hp
    by_cases hrefl : (reflectedIds finalParagraphs).contains p.id = true
    · rw [hb f1 finalParagraphs, reflectedIds_append, List.mem_append]
      exact Or.inl (contains_strings.1 hrefl)
    · rw [hb f1 finalParagraphs, reflectedIds_append, List.mem_append]
      right
      have hpf : p ∈ d.paragraphs.filter
          (fun q => !((reflectedIds finalParagraphs).contains q.id)) :=
        List.mem_filter.2 ⟨hp, by simpa using hrefl⟩
      obtain ⟨m, hm⟩ := mem_mapIdxFrom_of_mem
        (f := fun n q => { q with id := f1 n, originalId := some q.id }) 0 hpf
      exact mem_reflectedIds.2 ⟨⟨_, hm, rfl⟩, hids p hp⟩
  have hnil : d.paragraphs.filter
      (fun p => !((reflectedIds (addAllFromDraft f1 k drafts finalParagraphs)).contains p.id)) =
      [] := by
    rw [List.filter_eq_nil_iff]
    intro p hp
    simpa using hall p hp
  rw [hb f2 (addAllFromDraft f1 k drafts finalParagraphs), hnil]
  simp [mapIdxFrom]

theorem addAll_batch_and_idempotent_witness :
    addAllFromDraft (fun _ => "g") 0
        [ { id := 1, title := "초안 1", customTitle := "",
            paragraphs := [ { id := "d1", text := "T", sourceDraftIndex := some 0,
                              sourceParaIndex := some 0, originalId := some "d1" } ] } ]
        (addAllFromDraft (fun _ => "f") 0
          [ { id := 1, title := "초안 1", customTitle := "",
              paragraphs := [ { id := "d1", text := "T", sourceDraftIndex := some 0,
                                sourceParaIndex := some 0, originalId := some "d1" } ] } ]
          []) =
      addAllFromDraft (fun _ => "f") 0
        [ { id := 1, title := "초안 1", customTitle := "",
            paragraphs := [ { id := "d1", text := "T", sourceDraftIndex := some 0,
                              sourceParaIndex := some 0, originalId := some "d1" } ] } ]
        [] :=
  (addAll_batch_and_idempotent (fun _ => "f") (fun _ => "g") 0
    [ { id := 1, title := "초안 1", customTitle := "",
        paragraphs := [ { id := "d1", text := "T", sourceDraftIndex := some 0,
                          sourceParaIndex := some 0, originalId := some "d1" } ] } ]
    []
    { id := 1, title := "초안 1", customTitle := "",
      paragraphs := [ { id := "d1", text := "T", sourceDraftIndex := some 0,
                        sourceParaIndex := some 0, originalId := some "d1" } ] }
    (by decide) (by decide)).2

/-! ### C9 — multi-file import assigns sorted files to slots 1..3 -/

theorem uploadStep_length (sorted : List UploadFile) (ids : Nat → Nat → String)
    (ds : List ManuscriptDraft) (i : Nat) :
    (uploadStep sorted ids ds i).length = ds.length := by
  unfold uploadStep
  cases sorted[i]? <;> cases h : ds[i]? <;> simp

theorem foldl_uploadStep_length (sorted : List UploadFile) (ids : Nat → Nat → String) :
    ∀ (r : List Nat) (ds : List ManuscriptDraft),
      (r.foldl (uploadStep sorted ids) ds).length = ds.length := by
  intro r
  induction r with
  | nil => intro ds; rfl
  | cons a r ih =>
    intro ds
    rw [List.foldl_cons, ih, uploadStep_length]

theorem uploadStep_get_self (sorted : List UploadFile) (ids : Nat → Nat → String)
    (X : List ManuscriptDraft) (i : Nat) :
    (uploadStep sorted ids X i)[i]? =
      match sorted[i]?, X[i]? with
      | some file, some d =>
          some { d with paragraphs := parseTextToParagraphs (ids i) file.content i }
      | _, _ => X[i]? := by
  cases hs : sorted[i]? with
  | none => simp only [uploadStep, hs]
  | some file =>
    cases hx : X[i]? with
    | none => simp only [uploadStep, hs, hx]
    | some d =>
      have hlt : i < X.length := (List.getElem?_eq_some.1 hx).1
      simp only [uploadStep, hs, hx]
      rw [List.getElem?_set_self hlt]

theorem uploadStep_get_ne (sorted : List UploadFile) (ids : Nat → Nat → String)
    (X : List ManuscriptDraft) (m i : Nat) (hne : m ≠ i) :
    (uploadStep sorted ids X m)[i]? = X[i]? := by
  cases hs : sorted[m]? with
  | none => simp only [uploadStep, hs]
  | some file =>
    cases hx : X[m]? with
    | none => simp only [uploadStep, hs, hx]
    | some d =>
      simp only [uploadStep, hs, hx]
      exact List.getElem?_set_ne hne

theorem foldl_uploadStep_get (sorted : List UploadFile) (ids : Nat → Nat → String) :
    ∀ (m i : Nat) (ds : List ManuscriptDraft),
      ((List.range m).foldl (uploadStep sorted ids) ds)[i]? =
        if i < m then
          match sorted[i]?, ds[i]? with
          | some file, some d =>
              some { d with paragraphs := parseTextToParagraphs (ids i) file.content i }
          | _, _ => ds[i]?
        else ds[i]? := by
  intro m
  induction m with
  | zero => intro i ds; simp
  | succ m ih =>
    intro i ds
    rw [List.range_succ, List.foldl_append, List.foldl_cons, List.foldl_nil]
    by_cases him : i = m
    · subst him
      have hXi : ((List.range i).foldl (uploadStep sorted ids) ds)[i]? = ds[i]? := by
        rw [ih]; simp
      rw [uploadStep_get_self, hXi, if_pos (Nat.lt_succ_self i)]
    · rw [uploadStep_get_ne sorted ids _ m i (fun h => him h.symm), ih]
      rcases Nat.lt_trichotomy i m with h | h | h
      · rw [if_pos h, if_pos (Nat.lt_succ_of_lt h)]
      · exact absurd h him
      · rw [if_neg (by omega), if_neg (by omega)]

/-- C9: when at least one file is selected, the upload handler sorts the files
by name and re-parses draft slot `i` (for `i < 3`) from the `i`-th sorted
file's whole content; slots with no file keep their previous draft record,
and files beyond the third are ignored (no slot reads them); the number of
draft slots never changes. -/
theorem upload_slot_assignment (files : List UploadFile) (ids : Nat → Nat → String)
    (drafts : List ManuscriptDraft) (_h3 : drafts.length = 3) (hne : files ≠ []) :
    (handleGlobalFileUpload files ids drafts).length = drafts.length ∧
    (∀ i f d, i < 3 → (sortFilesByName files)[i]? = some f → drafts[i]? = some d →
      (handleGlobalFileUpload files ids drafts)[i]? =
        some { d with paragraphs := parseTextToParagraphs (ids i) f.content i }) ∧
    (∀ i, min (sortFilesByName files).length 3 ≤ i →
      (handleGlobalFileUpload files ids drafts)[i]? = drafts[i]?) := by
  have hniE : files.isEmpty = false := by
    cases files with
    | nil => exact absurd rfl hne
    | cons a as => rfl
  have hunf : handleGlobalFileUpload files ids drafts =
      applyUpload (sortFilesByName files) ids drafts := by
    unfold handleGlobalFileUpload
    rw [hniE]
    rfl
  refine ⟨?_, ?_, ?_⟩
  · rw [hunf]
    exact foldl_uploadStep_length _ _ _ _
  · intro i f d hi3 hf hd
    have hilt : i < (sortFilesByName files).length := (List.getElem?_eq_some.1 hf).1
    rw [hunf]
    unfold applyUpload
    rw [foldl_uploadStep_get, if_pos (by omega), hf, hd]
  · intro i hge
    rw [hunf]
    unfold applyUpload
    rw [foldl_uploadStep_get, if_neg (by omega)]

theorem upload_slot_assignment_witness :
    (handleGlobalFileUpload [ { name := "b", content := "B" },
        { name := "a", content := "A" } ] (fun _ _ => "id") defaultDrafts)[0]? =
      some { id := 1, title := "초안 1", customTitle := "",
             paragraphs := parseTextToParagraphs (fun _ => "id") "A" 0 } :=
  (upload_slot_assignment [ { name := "b", content := "B" }, { name := "a", content := "A" } ]
    (fun _ _ => "id") defaultDrafts (by decide) (by decide)).2.1 0
    { name := "a", content := "A" }
    { id := 1, title := "초안 1", customTitle := "", paragraphs := [] }
    (by decide) (by decide) (by decide)

/-! ### C1 — the paragraph splitter -/

theorem matchSep_cons_ne {ch : Char} (t : List Char) (h : ¬ ch = '\n') :
    matchSep (ch :: t) = none := by
  simp [matchSep, h]

theorem matchSep_some_length {l rem : List Char} (h : matchSep l = some rem) :
    rem.length < l.length := by
  cases l with
  | nil => simp [matchSep] at h
  | cons ch t =>
    by_cases hc : ch = '\n'
    · simp only [matchSep, if_pos hc] at h
      cases hlp : lastNewlinePos (t.takeWhile isJsWs) with
      | none => rw [hlp] at h; cases h
      | some j =>
        rw [hlp] at h
        cases h
        simp only [List.length_drop, List.length_cons]
        omega
    · rw [matchSep_cons_ne t hc] at h
      cases h

theorem splitSepAux_fuel :
    ∀ (f g : Nat) (l acc : List Char), l.length ≤ f → l.length ≤ g →
      splitSepAux f l acc = splitSepAux g l acc := by
  intro f
  induction f with
  | zero =>
    intro g l acc hf _
    have : l = [] := by
      cases l with
      | nil => rfl
      | cons a as => simp at hf
    subst this
    cases g <;> rfl
  | succ f ihf =>
    intro g l acc hf hg
    cases l with
    | nil => cases g <;> rfl
    | cons ch rest =>
      cases g with
      | zero => simp at hg
      | succ g' =>
        show (match matchSep (ch :: rest) with
          | some rem => acc.reverse :: splitSepAux f rem []
          | none => splitSepAux f rest (ch :: acc)) =
          (match matchSep (ch :: rest) with
          | some rem => acc.reverse :: splitSepAux g' rem []
          | none => splitSepAux g' rest (ch :: acc))
        cases hms : matchSep (ch :: rest) with
        | some rem =>
          have hlen := matchSep_some_length hms
          simp only [List.length_cons] at hlen hf hg
          dsimp only
          rw [ihf g' rem [] (by omega) (by omega)]
        | none =>
          simp only [List.length_cons] at hf hg
          dsimp only
          rw [ihf g' rest (ch :: acc) (by omega) (by omega)]

theorem splitSepAux_scan :
    ∀ (l r acc : List Char) (f : Nat), l.length + r.length ≤ f →
      NoMatchThrough l r →
      splitSepAux f (l ++ r) acc = splitSepAux r.length r (l.reverse ++ acc) := by
  intro l
  induction l with
  | nil =>
    intro r acc f hf _
    simpa using splitSepAux_fuel f r.length r acc (by simpa using hf) (Nat.le_refl _)
  | cons ch l' ih =>
    intro r acc f hf hnm
    cases f with
    | zero => simp at hf
    | succ f' =>
      have h0 : matchSep (ch :: (l' ++ r)) = none := by
        have := hnm 0 (by simp)
        simpa using this
      show (match matchSep (ch :: (l' ++ r)) with
        | some rem => acc.reverse :: splitSepAux f' rem []
        | none => splitSepAux f' (l' ++ r) (ch :: acc)) =
        splitSepAux r.length r ((ch :: l').reverse ++ acc)
      rw [h0]
      have hnm' : NoMatchThrough l' r := by
        intro i hi
        have := hnm (i + 1) (by simp; omega)
        simpa using this
      rw [ih r (ch :: acc) f' (by simp at hf; omega) hnm']
      simp

theorem takeWhile_append_of_exists {p : Char → Bool} :
    ∀ (a b : List Char), (∃ x ∈ a, p x = false) →
      (a ++ b).takeWhile p = a.takeWhile p := by
  intro a
  induction a with
  | nil =>
    intro b h
    obtain ⟨x, hx, _⟩ := h
    cases hx
  | cons c a' ih =>
    intro b h
    cases hp : p c with
    | false => simp [List.takeWhile_cons, hp]
    | true =>
      obtain ⟨x, hx, hxp⟩ := h
      have hxa : x ∈ a' := by
        rcases List.mem_cons.1 hx with h1 | h1
        · subst h1; rw [hp] at hxp; cases hxp
        · exact h1
      simp only [List.cons_append, List.takeWhile_cons, hp, if_true]
      rw [ih b ⟨x, hxa, hxp⟩]

theorem lastNewlinePos_no_newline :
    ∀ {tw : List Char}, (∀ x ∈ tw, x ≠ '\n') → lastNewlinePos tw = none := by
  intro tw
  induction tw with
  | nil => intro _; rfl
  | cons a as ih =>
    intro h
    unfold lastNewlinePos
    rw [ih (fun x hx => h x (List.mem_cons_of_mem _ hx))]
    simp [h a (List.mem_cons_self _ _)]

theorem lastNewlinePos_append_some :
    ∀ (mid rest : List Char) (j : Nat), lastNewlinePos rest = some j →
      lastNewlinePos (mid ++ rest) = some (mid.length + j) := by
  intro mid
  induction mid with
  | nil => intro rest j h; simpa using h
  | cons m mid' ih =>
    intro rest j h
    show lastNewlinePos (m :: (mid' ++ rest)) = some ((m :: mid').length + j)
    unfold lastNewlinePos
    rw [ih rest j h]
    simp only [List.length_cons]
    congr 1
    omega

theorem headNotWs_takeWhile_nil {r : List Char} (h : headNotWs r = true) :
    r.takeWhile isJsWs = [] := by
  cases r with
  | nil => rfl
  | cons y ys =>
    have : isJsWs y = false := by
      simpa [headNotWs] using h
    simp [List.takeWhile_cons, this]

theorem matchSep_boundary (mid r : List Char)
    (hmid : ∀ x ∈ mid, isJsWs x = true)
    (hr : ∀ x ∈ r.takeWhile isJsWs, x ≠ '\n') :
    matchSep ('\n' :: (mid ++ '\n' :: r)) = some r := by
  have htw : (mid ++ '\n' :: r).takeWhile isJsWs = mid ++ '\n' :: r.takeWhile isJsWs := by
    induction mid with
    | nil =>
      show ('\n' :: r).takeWhile isJsWs = '\n' :: r.takeWhile isJsWs
      rw [List.takeWhile_cons, if_pos (by decide)]
    | cons m mid' ih =>
      have hm : isJsWs m = true := hmid m (List.mem_cons_self _ _)
      have ih' := ih (fun x hx => hmid x (List.mem_cons_of_mem _ hx))
      simp only [List.cons_append, List.takeWhile_cons, hm, if_true, ih']
  have hlast : lastNewlinePos (mid ++ '\n' :: r.takeWhile isJsWs) = some mid.length := by
    have h0 : lastNewlinePos (r.takeWhile isJsWs) = none := lastNewlinePos_no_newline hr
    have h1 : lastNewlinePos ('\n' :: r.takeWhile isJsWs) = some 0 := by
      unfold lastNewlinePos
      rw [h0]
      simp
    have h2 := lastNewlinePos_append_some mid ('\n' :: r.takeWhile isJsWs) 0 h1
    simpa using h2
  show (if '\n' = '\n' then
      match lastNewlinePos ((mid ++ '\n' :: r).takeWhile isJsWs) with
      | some j => some ((mid ++ '\n' :: r).drop (j + 1))
      | none => none
    else none) = some r
  rw [if_pos rfl, htw, hlast]
  show some ((mid ++ '\n' :: r).drop (mid.length + 1)) = some r
  have hsplit : mid ++ '\n' :: r = (mid ++ ['\n']) ++ r := by simp
  rw [hsplit, List.drop_left' (by simp)]

theorem goodChunk_last_not_ws {c : List Char} (hc : GoodChunk c) :
    ∃ z, c.getLast? = some z ∧ isJsWs z = false := by
  obtain ⟨hne, _, hlast, _⟩ := hc
  cases hz : c.getLast? with
  | none =>
    rw [List.getLast?_eq_none_iff] at hz
    exact absurd hz hne
  | some z =>
    refine ⟨z, rfl, ?_⟩
    have hrev : c.reverse.head? = some z := by
      rw [List.head?_reverse, hz]
    simpa [headNotWs, hrev] using hlast

theorem noMatchThrough_of_goodChunk (ck r : List Char) (hc : GoodChunk ck) :
    NoMatchThrough ck r := by
  obtain ⟨hne, hhead, hlast, hrun⟩ := hc
  intro i hi
  have hdropc : ck.drop i = ck[i] :: ck.drop (i + 1) := (List.getElem_cons_drop ck i hi).symm
  have happ : ck.drop i ++ r = ck[i] :: (ck.drop (i + 1) ++ r) := by
    rw [hdropc]; rfl
  by_cases hnl : ck[i] = '\n'
  · obtain ⟨z, hz, hzws⟩ := goodChunk_last_not_ws ⟨hne, hhead, hlast, hrun⟩
    have hlenpos : 0 < ck.length := by
      cases ck with
      | nil => exact absurd rfl hne
      | cons a as => simp
    have hi1 : i + 1 < ck.length := by
      rcases Nat.lt_or_ge (i + 1) ck.length with h | h
      · exact h
      · exfalso
        have hieq : i = ck.length - 1 := by omega
        rw [List.getLast?_eq_getElem?, ← hieq, List.getElem?_eq_getElem hi] at hz
        have : z = ck[i] := by injection hz with h'; exact h'.symm
        rw [this, hnl] at hzws
        cases hzws
    have hzmem : ∃ x ∈ ck.drop (i + 1), isJsWs x = false := by
      refine ⟨z, ?_, hzws⟩
      rw [List.getLast?_eq_getElem?, List.getElem?_eq_getElem (by omega)] at hz
      have hidx : ck.length - 1 - (i + 1) < (ck.drop (i + 1)).length := by
        rw [List.length_drop]; omega
      have hget : (ck.drop (i + 1))[ck.length - 1 - (i + 1)] = ck[(i + 1) + (ck.length - 1 - (i + 1))] :=
        List.getElem_drop ck
      have hieq : (i + 1) + (ck.length - 1 - (i + 1)) = ck.length - 1 := by omega
      have hzc : z = (ck.drop (i + 1))[ck.length - 1 - (i + 1)] := by
        injection hz with h'
        rw [hget]
        rw [← h']
        congr 1
        omega
      rw [hzc]
      exact List.getElem_mem hidx
    have hrun_i : matchSep (ck.drop i) = none := by
      have := List.all_eq_true.1 hrun i (List.mem_range.2 hi)
      simpa [Option.isNone_iff_eq_none] using this
    rw [hdropc] at hrun_i
    rw [happ]
    have htw : ((ck.drop (i + 1)) ++ r).takeWhile isJsWs = (ck.drop (i + 1)).takeWhile isJsWs :=
      takeWhile_append_of_exists _ _ hzmem
    rw [hnl] at hrun_i ⊢
    show (if '\n' = '\n' then
        match lastNewlinePos (((ck.drop (i + 1)) ++ r).takeWhile isJsWs) with
        | some j => some (((ck.drop (i + 1)) ++ r).drop (j + 1))
        | none => none
      else none) = none
    rw [if_pos rfl, htw]
    revert hrun_i
    show (if '\n' = '\n' then
        match lastNewlinePos ((ck.drop (i + 1)).takeWhile isJsWs) with
        | some j => some ((ck.drop (i + 1)).drop (j + 1))
        | none => none
      else none) = none → _
    rw [if_pos rfl]
    cases hlp : lastNewlinePos ((ck.drop (i + 1)).takeWhile isJsWs) with
    | none => intro _; rfl
    | some j => intro hcontra; cases hcontra
  · rw [happ]
    exact matchSep_cons_ne _ hnl

theorem goodSepB_elim {s : List Char} (h : goodSepB s = true) :
    ∃ mid, s = '\n' :: mid ++ ['\n'] ∧ ∀ x ∈ mid, isJsWs x = true := by
  have h' := h
  unfold goodSepB at h'
  simp only [Bool.and_eq_true, decide_eq_true_eq, beq_iff_eq] at h'
  obtain ⟨⟨⟨hlen, hhead⟩, hlast⟩, hall⟩ := h'
  obtain ⟨ys, hys⟩ := List.head?_eq_some_iff.1 hhead
  obtain ⟨zs, hzs⟩ := List.getLast?_eq_some_iff.1 hlast
  cases zs with
  | nil =>
    rw [hzs] at hlen
    simp at hlen
  | cons a zs' =>
    have ha : a = '\n' := by
      rw [hzs] at hys
      simpa using congrArg List.head? hys
    refine ⟨zs', ?_, ?_⟩
    · rw [hzs, ha]
    · intro x hx
      exact List.all_eq_true.1 hall x (by rw [hzs]; simp [hx])

theorem joinChunks_eq_append (c2 : List Char) (rest : List (List Char × List Char)) :
    ∃ t, joinChunks c2 rest = c2 ++ t := by
  cases rest with
  | nil => exact ⟨[], by simp [joinChunks]⟩
  | cons pr rest' =>
    obtain ⟨s, c3⟩ := pr
    exact ⟨s ++ joinChunks c3 rest', by simp [joinChunks]⟩

theorem headNotWs_append_of_goodChunk {c2 : List Char} (t : List Char) (h : GoodChunk c2) :
    headNotWs (c2 ++ t) = true := by
  obtain ⟨hne, hh, _, _⟩ := h
  cases c2 with
  | nil => exact absurd rfl hne
  | cons x c2' => simpa [headNotWs] using hh

theorem takeWhile_append_all {p : Char → Bool} :
    ∀ (a b : List Char), (∀ x ∈ a, p x = true) →
      (a ++ b).takeWhile p = a ++ b.takeWhile p := by
  intro a
  induction a with
  | nil => intro b _; rfl
  | cons c a' ih =>
    intro b h
    have hc : p c = true := h c (List.mem_cons_self _ _)
    simp only [List.cons_append, List.takeWhile_cons, hc, if_true]
    rw [ih b (fun x hx => h x (List.mem_cons_of_mem _ hx))]

theorem dropWhile_append_all {p : Char → Bool} :
    ∀ (a b : List Char), (∀ x ∈ a, p x = true) →
      (a ++ b).dropWhile p = b.dropWhile p := by
  intro a
  induction a with
  | nil => intro b _; rfl
  | cons c a' ih =>
    intro b h
    have hc : p c = true := h c (List.mem_cons_self _ _)
    simp only [List.cons_append, List.dropWhile_cons, hc, if_true]
    exact ih b (fun x hx => h x (List.mem_cons_of_mem _ hx))

theorem dropWhile_all_nil {p : Char → Bool} (a : List Char)
    (h : ∀ x ∈ a, p x = true) : a.dropWhile p = [] := by
  have := dropWhile_append_all a [] h
  simpa using this

theorem nlFreeWsB_ws {w : List Char} (h : nlFreeWsB w = true) :
    ∀ x ∈ w, isJsWs x = true := by
  intro x hx
  have := List.all_eq_true.1 h x hx
  simp only [Bool.and_eq_true] at this
  exact this.1

theorem nlFreeWsB_no_newline {w : List Char} (h : nlFreeWsB w = true) :
    ∀ x ∈ w, x ≠ '\n' := by
  intro x hx
  have := List.all_eq_true.1 h x hx
  simp only [Bool.and_eq_true] at this
  simpa using this.2

theorem noMatchThrough_append {a b r : List Char}
    (h1 : NoMatchThrough a (b ++ r)) (h2 : NoMatchThrough b r) :
    NoMatchThrough (a ++ b) r := by
  intro i hi
  rw [List.length_append] at hi
  rcases Nat.lt_or_ge i a.length with h | h
  · have hd : (a ++ b).drop i = a.drop i ++ b := by
      rw [List.drop_append_eq_append_drop, Nat.sub_eq_zero_of_le (Nat.le_of_lt h)]
      rfl
    rw [hd, List.append_assoc]
    exact h1 i h
  · have hd : (a ++ b).drop i = b.drop (i - a.length) := by
      rw [List.drop_append_eq_append_drop, List.drop_eq_nil_of_le h]
      rfl
    rw [hd]
    exact h2 (i - a.length) (by omega)

theorem noMatchThrough_of_no_newline {w : List Char} (r : List Char)
    (h : ∀ x ∈ w, x ≠ '\n') : NoMatchThrough w r := by
  intro i hi
  have hd : w.drop i = w[i] :: w.drop (i + 1) := (List.getElem_cons_drop w i hi).symm
  have : w.drop i ++ r = w[i] :: (w.drop (i + 1) ++ r) := by rw [hd]; rfl
  rw [this]
  exact matchSep_cons_ne _ (h _ (List.getElem_mem hi))

theorem noMatchThrough_chunkOf {cs : ChunkSpec} (r : List Char)
    (h : GoodChunkSpec cs) : NoMatchThrough (chunkOf cs) r := by
  obtain ⟨hl, hcore, ht⟩ := h
  have hassoc : chunkOf cs = cs.wsLead ++ (cs.core ++ cs.wsTrail) := by
    simp [chunkOf]
  rw [hassoc]
  refine noMatchThrough_append (noMatchThrough_of_no_newline _ (nlFreeWsB_no_newline hl)) ?_
  exact noMatchThrough_append (noMatchThrough_of_goodChunk cs.core (cs.wsTrail ++ r) hcore)
    (noMatchThrough_of_no_newline _ (nlFreeWsB_no_newline ht))

theorem takeWhile_chunkOf_no_newline {cs : ChunkSpec} (hcs : GoodChunkSpec cs)
    (t : List Char) : ∀ x ∈ (chunkOf cs ++ t).takeWhile isJsWs, x ≠ '\n' := by
  obtain ⟨hl, hcore, ht⟩ := hcs
  have hassoc : chunkOf cs ++ t = cs.wsLead ++ (cs.core ++ (cs.wsTrail ++ t)) := by
    simp [chunkOf]
  rw [hassoc, takeWhile_append_all _ _ (nlFreeWsB_ws hl)]
  have hnil : (cs.core ++ (cs.wsTrail ++ t)).takeWhile isJsWs = [] :=
    headNotWs_takeWhile_nil (headNotWs_append_of_goodChunk _ hcore)
  rw [hnil]
  intro x hx
  exact nlFreeWsB_no_newline hl x (by simpa using hx)

theorem jsTrim_padded {cs : ChunkSpec} (hcs : GoodChunkSpec cs) :
    jsTrim (chunkOf cs) = cs.core := by
  obtain ⟨hl, hcore, ht⟩ := hcs
  obtain ⟨hne, hh, hlast, _⟩ := hcore
  unfold jsTrim
  have hassoc : chunkOf cs = cs.wsLead ++ (cs.core ++ cs.wsTrail) := by
    simp [chunkOf]
  rw [hassoc, dropWhile_append_all _ _ (nlFreeWsB_ws hl)]
  have h1 : (cs.core ++ cs.wsTrail).dropWhile isJsWs = cs.core ++ cs.wsTrail := by
    cases hcc : cs.core with
    | nil => exact absurd hcc hne
    | cons x c' =>
      have hx : isJsWs x = false := by
        rw [hcc] at hh
        simpa [headNotWs] using hh
      simp [List.dropWhile_cons, hx]
  rw [h1, List.reverse_append,
    dropWhile_append_all _ _ (fun x hx => nlFreeWsB_ws ht x (List.mem_reverse.1 hx))]
  have h2 : cs.core.reverse.dropWhile isJsWs = cs.core.reverse := by
    cases hcr : cs.core.reverse with
    | nil => rfl
    | cons y ys =>
      have hy : isJsWs y = false := by
        rw [hcr] at hlast
        simpa [headNotWs] using hlast
      simp [List.dropWhile_cons, hy]
  rw [h2, List.reverse_reverse]

theorem matchSep_some_subset {l rem : List Char} (h : matchSep l = some rem) :
    rem ⊆ l := by
  cases l with
  | nil => simp [matchSep] at h
  | cons a as =>
    by_cases ha : a = '\n'
    · simp only [matchSep, if_pos ha] at h
      cases hlp : lastNewlinePos (as.takeWhile isJsWs) with
      | none => rw [hlp] at h; cases h
      | some j =>
        rw [hlp] at h
        have hrem : rem = as.drop (j + 1) := by
          injection h with h'
          exact h'.symm
        rw [hrem]
        intro x hx
        exact List.mem_cons_of_mem _ (List.drop_subset _ _ hx)
    · rw [matchSep_cons_ne _ ha] at h
      cases h

theorem splitSepAux_chars :
    ∀ (f : Nat) (l acc ch : List Char) (x : Char),
      ch ∈ splitSepAux f l acc → x ∈ ch → x ∈ l ∨ x ∈ acc := by
  intro f
  induction f with
  | zero =>
    intro l acc ch x hch hx
    cases l with
    | nil =>
      have : ch = acc.reverse := by simpa [splitSepAux] using hch
      subst this
      exact Or.inr (List.mem_reverse.1 hx)
    | cons a as =>
      have : ch = acc.reverse ++ (a :: as) := by simpa [splitSepAux] using hch
      subst this
      rcases List.mem_append.1 hx with h | h
      · exact Or.inr (List.mem_reverse.1 h)
      · exact Or.inl h
  | succ f ih =>
    intro l acc ch x hch hx
    cases l with
    | nil =>
      have : ch = acc.reverse := by simpa [splitSepAux] using hch
      subst this
      exact Or.inr (List.mem_reverse.1 hx)
    | cons a as =>
      revert hch
      show ch ∈ (match matchSep (a :: as) with
        | some rem => acc.reverse :: splitSepAux f rem []
        | none => splitSepAux f as (a :: acc)) → _
      cases hms : matchSep (a :: as) with
      | some rem =>
        intro hch
        rcases List.mem_cons.1 hch with h | h
        · subst h
          exact Or.inr (List.mem_reverse.1 hx)
        · rcases ih rem [] ch x h hx with h' | h'
          · exact Or.inl (matchSep_some_subset hms h')
          · cases h'
      | none =>
        intro hch
        rcases ih as (a :: acc) ch x hch hx with h' | h'
        · exact Or.inl (List.mem_cons_of_mem _ h')
        · rcases List.mem_cons.1 h' with h'' | h''
          · subst h''
            exact Or.inl (List.mem_cons_self _ _)
          · exact Or.inr h''

theorem jsTrim_of_allWs {w : List Char} (h : ∀ x ∈ w, isJsWs x = true) :
    jsTrim w = [] := by
  unfold jsTrim
  rw [dropWhile_all_nil w h]
  rfl

theorem splitSepAux_join :
    ∀ (pairs : List (List Char × ChunkSpec)) (cs : ChunkSpec) (acc : List Char) (f : Nat),
      (joinChunks (chunkOf cs) (pairs.map (fun pr => (pr.1, chunkOf pr.2)))).length ≤ f →
      GoodChunkSpec cs →
      (∀ pr ∈ pairs, goodSepB pr.1 = true ∧ GoodChunkSpec pr.2) →
      splitSepAux f (joinChunks (chunkOf cs) (pairs.map (fun pr => (pr.1, chunkOf pr.2)))) acc =
        (acc.reverse ++ chunkOf cs) :: pairs.map (fun pr => chunkOf pr.2) := by
  intro pairs
  induction pairs with
  | nil =>
    intro cs acc f hf hc _
    simp only [List.map_nil]
    have hflen : (chunkOf cs).length + ([] : List Char).length ≤ f := by
      simpa [joinChunks] using hf
    have hscan := splitSepAux_scan (chunkOf cs) [] acc f hflen (noMatchThrough_chunkOf [] hc)
    rw [show joinChunks (chunkOf cs) ([] : List (List Char × List Char)) =
      chunkOf cs ++ [] from by simp [joinChunks]]
    rw [hscan]
    show [((chunkOf cs).reverse ++ acc).reverse] = (acc.reverse ++ chunkOf cs) :: []
    simp
  | cons pr rest ih =>
    obtain ⟨s, c2⟩ := pr
    intro cs acc f hf hc hps
    have hsep : goodSepB s = true := (hps (s, c2) (by simp)).1
    have hc2 : GoodChunkSpec c2 := (hps (s, c2) (by simp)).2
    obtain ⟨mid, hsmid, hmidws⟩ := goodSepB_elim hsep
    have hjoin : joinChunks (chunkOf cs) (((s, c2) :: rest).map (fun q => (q.1, chunkOf q.2))) =
        chunkOf cs ++ (s ++ joinChunks (chunkOf c2) (rest.map (fun q => (q.1, chunkOf q.2)))) := by
      simp [joinChunks]
    obtain ⟨t, ht⟩ := joinChunks_eq_append (chunkOf c2) (rest.map (fun q => (q.1, chunkOf q.2)))
    have hheadJ : ∀ x ∈ (joinChunks (chunkOf c2)
        (rest.map (fun q => (q.1, chunkOf q.2)))).takeWhile isJsWs, x ≠ '\n' := by
      rw [ht]
      exact takeWhile_chunkOf_no_newline hc2 t
    have hms : matchSep (s ++ joinChunks (chunkOf c2) (rest.map (fun q => (q.1, chunkOf q.2)))) =
        some (joinChunks (chunkOf c2) (rest.map (fun q => (q.1, chunkOf q.2)))) := by
      rw [hsmid]
      have : ('\n' :: mid ++ ['\n']) ++
          joinChunks (chunkOf c2) (rest.map (fun q => (q.1, chunkOf q.2))) =
          '\n' :: (mid ++ '\n' :: joinChunks (chunkOf c2)
            (rest.map (fun q => (q.1, chunkOf q.2)))) := by simp
      rw [this]
      exact matchSep_boundary mid _ hmidws hheadJ
    have hscan := splitSepAux_scan (chunkOf cs)
      (s ++ joinChunks (chunkOf c2) (rest.map (fun q => (q.1, chunkOf q.2)))) acc f
      (by rw [hjoin] at hf; simpa [List.length_append] using hf)
      (noMatchThrough_chunkOf _ hc)
    rw [hjoin, hscan]
    have hslen : s.length = mid.length + 2 := by
      rw [hsmid]; simp
    have hlen1 : (s ++ joinChunks (chunkOf c2) (rest.map (fun q => (q.1, chunkOf q.2)))).length =
        (mid ++ '\n' :: joinChunks (chunkOf c2) (rest.map (fun q => (q.1, chunkOf q.2)))).length
          + 1 := by
      simp only [List.length_append, List.length_cons, hslen]
      omega
    have hsplit2 : s ++ joinChunks (chunkOf c2) (rest.map (fun q => (q.1, chunkOf q.2))) =
        '\n' :: (mid ++ '\n' :: joinChunks (chunkOf c2)
          (rest.map (fun q => (q.1, chunkOf q.2)))) := by
      rw [hsmid]; simp
    rw [hlen1, hsplit2]
    show (match matchSep ('\n' :: (mid ++ '\n' :: joinChunks (chunkOf c2)
        (rest.map (fun q => (q.1, chunkOf q.2))))) with
      | some rem => ((chunkOf cs).reverse ++ acc).reverse :: splitSepAux
          (mid ++ '\n' :: joinChunks (chunkOf c2)
            (rest.map (fun q => (q.1, chunkOf q.2)))).length rem []
      | none => splitSepAux (mid ++ '\n' :: joinChunks (chunkOf c2)
          (rest.map (fun q => (q.1, chunkOf q.2)))).length
          (mid ++ '\n' :: joinChunks (chunkOf c2) (rest.map (fun q => (q.1, chunkOf q.2))))
          ('\n' :: ((chunkOf cs).reverse ++ acc))) =
      (acc.reverse ++ chunkOf cs) :: ((s, c2) :: rest).map (fun q => chunkOf q.2)
    rw [← hsplit2, hms]
    have hfuel : splitSepAux (mid ++ '\n' :: joinChunks (chunkOf c2)
        (rest.map (fun q => (q.1, chunkOf q.2)))).length
        (joinChunks (chunkOf c2) (rest.map (fun q => (q.1, chunkOf q.2)))) [] =
        splitSepAux (joinChunks (chunkOf c2) (rest.map (fun q => (q.1, chunkOf q.2)))).length
          (joinChunks (chunkOf c2) (rest.map (fun q => (q.1, chunkOf q.2)))) [] := by
      refine splitSepAux_fuel _ _ _ _ ?_ (Nat.le_refl _)
      simp only [List.length_append, List.length_cons]
      omega
    dsimp only
    rw [hfuel, ih c2 []
      (joinChunks (chunkOf c2) (rest.map (fun q => (q.1, chunkOf q.2)))).length
      (Nat.le_refl _) hc2 (fun q hq => hps q (List.mem_cons_of_mem _ hq))]
    simp

theorem splitSep_join (cs : ChunkSpec) (pairs : List (List Char × ChunkSpec))
    (hc : GoodChunkSpec cs) (hps : ∀ pr ∈ pairs, goodSepB pr.1 = true ∧ GoodChunkSpec pr.2) :
    splitSep (joinChunks (chunkOf cs) (pairs.map (fun pr => (pr.1, chunkOf pr.2)))) =
      chunkOf cs :: pairs.map (fun pr => chunkOf pr.2) := by
  unfold splitSep
  simpa using splitSepAux_join pairs cs []
    (joinChunks (chunkOf cs) (pairs.map (fun pr => (pr.1, chunkOf pr.2)))).length
    (Nat.le_refl _) hc hps

/-- C1: the splitter splits on whitespace-tolerant runs of two-or-more
newlines, trims each resulting chunk, and discards empty chunks.  First
conjunct: an input assembled from `N` non-empty chunks (each a trimmed,
blank-line-free core wrapped in newline-free padding whitespace) joined by
blank-line separators yields exactly `N` paragraphs in original order, the
`pIdx`-th carrying the trimmed core text, the given `sourceDraftIndex`,
`sourceParaIndex = pIdx` (its position among surviving chunks), the minted
id `ids pIdx`, and `originalId` equal to that same id.  Second conjunct: an
all-whitespace input yields no paragraphs — every chunk the split produces
trims to empty and is discarded. -/
theorem split_chunks_roundtrip (ids : Nat → String) (k : Nat) (c0 : ChunkSpec)
    (pairs : List (List Char × ChunkSpec)) (w : List Char)
    (hc : GoodChunkSpec c0)
    (hps : ∀ pr ∈ pairs, goodSepB pr.1 = true ∧ GoodChunkSpec pr.2)
    (hw : allWsB w = true) :
    parseTextToParagraphs ids
        (String.mk (joinChunks (chunkOf c0) (pairs.map (fun pr => (pr.1, chunkOf pr.2))))) k =
      mapIdxFrom
        (fun pIdx t =>
          { id := ids pIdx, text := String.mk t, sourceDraftIndex := some k,
            sourceParaIndex := some pIdx, originalId := some (ids pIdx) })
        0 (c0.core :: pairs.map (fun pr => pr.2.core)) ∧
    parseTextToParagraphs ids (String.mk w) k = [] := by
  have hne' : ∀ t : List Char, t ≠ [] → (!t.isEmpty) = true := by
    intro t htne
    cases t with
    | nil => exact absurd rfl htne
    | cons a as => rfl
  constructor
  · unfold parseTextToParagraphs
    have hdata : (String.mk (joinChunks (chunkOf c0)
        (pairs.map (fun pr => (pr.1, chunkOf pr.2))))).data =
        joinChunks (chunkOf c0) (pairs.map (fun pr => (pr.1, chunkOf pr.2))) := rfl
    rw [hdata, splitSep_join c0 pairs hc hps]
    have hmap : (chunkOf c0 :: pairs.map (fun pr => chunkOf pr.2)).map jsTrim =
        c0.core :: pairs.map (fun pr => pr.2.core) := by
      rw [List.map_cons, jsTrim_padded hc, List.map_map]
      congr 1
      refine List.map_congr_left ?_
      intro pr hpr
      exact jsTrim_padded (hps pr hpr).2
    rw [hmap]
    have hfil : (c0.core :: pairs.map (fun pr => pr.2.core)).filter
        (fun cs => !cs.isEmpty) = c0.core :: pairs.map (fun pr => pr.2.core) := by
      rw [List.filter_eq_self]
      intro t htm
      rcases List.mem_cons.1 htm with h | h
      · subst h
        exact hne' _ hc.2.1.1
      · obtain ⟨pr, hpr, rfl⟩ := List.mem_map.1 h
        exact hne' _ ((hps pr hpr).2.2.1).1
    rw [hfil]
  · unfold parseTextToParagraphs
    have hdata : (String.mk w).data = w := rfl
    rw [hdata]
    have hfilnil : ((splitSep w).map jsTrim).filter (fun cs => !cs.isEmpty) = [] := by
      rw [List.filter_eq_nil_iff]
      intro t htm
      obtain ⟨ch, hch, rfl⟩ := List.mem_map.1 htm
      have hsub : ∀ x ∈ ch, x ∈ w := by
        intro x hx
        rcases splitSepAux_chars w.length w [] ch x hch hx with h | h
        · exact h
        · cases h
      have htr : jsTrim ch = [] :=
        jsTrim_of_allWs (fun x hx => List.all_eq_true.1 hw x (hsub x hx))
      rw [htr]
      simp
    rw [hfilnil]
    rfl

theorem split_chunks_roundtrip_witness :
    parseTextToParagraphs (fun n => "p" ++ (List.replicate n 'x').asString)
        (String.mk (joinChunks
          (chunkOf { wsLead := [' '], core := ['A'], wsTrail := [' '] })
          ([(['\n', '\n'], { wsLead := [], core := ['B', 'C'], wsTrail := [' '] })].map
            (fun pr => (pr.1, chunkOf pr.2))))) 2 =
      mapIdxFrom
        (fun pIdx t =>
          { id := ("p" ++ (List.replicate pIdx 'x').asString), text := String.mk t,
            sourceDraftIndex := some 2, sourceParaIndex := some pIdx,
            originalId := some ("p" ++ (List.replicate pIdx 'x').asString) })
        0 (['A'] ::
            [(['\n', '\n'],
              ({ wsLead := [], core := ['B', 'C'], wsTrail := [' '] } : ChunkSpec))].map
              (fun pr => pr.2.core)) ∧
    parseTextToParagraphs (fun n => "p" ++ (List.replicate n 'x').asString)
        (String.mk ['\n', '\n', ' ']) 2 = [] :=
  split_chunks_roundtrip (fun n => "p" ++ (List.replicate n 'x').asString) 2
    { wsLead := [' '], core := ['A'], wsTrail := [' '] }
    [(['\n', '\n'], { wsLead := [], core := ['B', 'C'], wsTrail := [' '] })]
    ['\n', '\n', ' ']
    (by decide) (by decide) (by decide)

end DraftSynth
